import Mathlib

/-!
Verification of the collaborative-filtering core of `rec.py`.

The embedding follows the source line by line:

* `splitComma` models the Python `str.split(',')` used on the referrer
  field (`df['紹介者'].str.split(',').explode()`), including the fact
  that splitting the empty string yields one empty field.
* `keptPairs` models the pivot step.  The source calls
  `pivot_table(values='rating', index='user', columns=df['店名'], aggfunc='sum', fill_value=0)`
  on the exploded pair frame.  The `columns` argument is a Series
  indexed by record position, while the exploded frame carries a fresh
  range index over pairs, so pandas aligns the Series by index: pair
  number `p` receives the name of record number `p`, and pairs beyond
  the record count receive a missing label and are dropped by the
  grouper.  `keptPairs` is therefore the positional zip of the exploded
  user list with the record-name list.
* `usersL` / `itemsL` are the sorted distinct row and column keys of the
  pivot (pandas sorts group keys lexicographically by code point, which
  `strLe` models on the character lists).
* `user_item_matrix` is the row-normalised matrix
  (`user_item_matrix.div(user_item_matrix.sum(axis=1), axis=0)`),
  with rational weights in place of floats.
* `cosine_similarity` models sklearn cosine similarity, which replaces
  a zero row norm by 1 before dividing; similarity values are reals.
  For the executable recommenders, a similarity value is carried as the
  pair `(dot, adjusted squared norms)`; sorting compares the rational
  surrogate `pairScore p = p.1 ^ 2 / p.2`, which is order-isomorphic to
  the real cosine value for the nonnegative vectors that occur here
  (theorem `pairScore_le_iff`).
* `user_based_recommendation` / `item_based_recommendation` model the
  two query functions, including the `argsort()[::-1][1:6]` window, the
  column-wise mean, the `sort_values` step, and the
  `Index.difference` step (which returns the set difference sorted
  lexicographically, and reindexing by it reorders the candidates).
  `argsort` and `sort_values` are modelled as stable sorts.
-/

namespace RecRestaurant

/-- One flat input record as delivered by the data loader: the
restaurant name and the raw referrer field, a possibly comma-delimited
list of user names.  Tags, URL and station play no part in the matrix
construction. -/
structure RestaurantRecord where
  name : String
  referrer : String

/-- Helper for `splitComma`: accumulates the current field (reversed)
while scanning the character list. -/
def splitCommaAux : List Char → List Char → List String
  | [], acc => [String.mk acc.reverse]
  | c :: cs, acc =>
    if c = ',' then String.mk acc.reverse :: splitCommaAux cs []
    else splitCommaAux cs (c :: acc)

/-- Python `s.split(',')`: the fields between commas, with no trimming;
the empty string yields `[""]`. -/
def splitComma (s : String) : List String := splitCommaAux s.data []

/-- The exploded referrer column: every referrer name of every record,
in record order (`df['紹介者'].str.split(',').explode()`). -/
def explodedUsers (recs : List RestaurantRecord) : List String :=
  recs.flatMap (fun r => splitComma r.referrer)

/-- The (user, column-label) pairs that survive the pivot.  Because the
`columns=df['店名']` Series is aligned to the pair frame by position,
pair `p` is labelled with the name of record `p`, and pairs past the
record count are dropped (see the module docstring). -/
def keptPairs (recs : List RestaurantRecord) : List (String × String) :=
  List.zip (explodedUsers recs) (recs.map (fun r => r.name))

/-- Insert `x` into `l` before the first element `y` with `le x y`. -/
def insertLe {α : Type} (le : α → α → Bool) (x : α) : List α → List α
  | [] => [x]
  | y :: ys => if le x y then x :: y :: ys else y :: insertLe le x ys

/-- Stable insertion sort by the boolean relation `le`. -/
def sortLe {α : Type} (le : α → α → Bool) : List α → List α
  | [] => []
  | x :: xs => insertLe le x (sortLe le xs)

/-- Lexicographic order on character lists by code point, as Python
compares strings. -/
def lexLe : List Char → List Char → Bool
  | [], _ => true
  | _ :: _, [] => false
  | a :: as, b :: bs =>
    if a.toNat < b.toNat then true
    else if b.toNat < a.toNat then false
    else lexLe as bs

/-- String order by code points, matching the order pandas uses for
group keys. -/
def strLe (a b : String) : Bool := lexLe a.data b.data

/-- The sorted list of distinct keys, as a pandas index: duplicates
collapse and the keys are sorted lexicographically. -/
def sortedKeys (l : List String) : List String := sortLe strLe l.dedup

/-- The row index of the pivot: the sorted distinct users among the
kept pairs. -/
def usersL (recs : List RestaurantRecord) : List String :=
  sortedKeys ((keptPairs recs).map Prod.fst)

/-- The column index of the pivot: the sorted distinct column labels
among the kept pairs. -/
def itemsL (recs : List RestaurantRecord) : List String :=
  sortedKeys ((keptPairs recs).map Prod.snd)

/-- The raw pivot entry: how many kept pairs equal `(u, i)` (each pair
carries rating 1 and `aggfunc='sum'` adds them; `fill_value=0`). -/
def rawEntry (recs : List RestaurantRecord) (u i : String) : ℚ :=
  ((keptPairs recs).count (u, i) : ℚ)

/-- The raw row sum `user_item_matrix.sum(axis=1)` of user `u`. -/
def rowSum (recs : List RestaurantRecord) (u : String) : ℚ :=
  ((itemsL recs).map (fun i => rawEntry recs u i)).sum

/-- The normalised preference matrix:
`user_item_matrix.div(user_item_matrix.sum(axis=1), axis=0)`. -/
def user_item_matrix (recs : List RestaurantRecord) (u i : String) : ℚ :=
  rawEntry recs u i / rowSum recs u

/-- The user at row position `a` of the pivot index. -/
def userAt (recs : List RestaurantRecord) (a : ℕ) : String :=
  (usersL recs).getD a ""

/-- The restaurant at column position `c` of the pivot columns. -/
def itemAt (recs : List RestaurantRecord) (c : ℕ) : String :=
  (itemsL recs).getD c ""

/-- Row vector of the matrix at row position `a`. -/
def rowVec (recs : List RestaurantRecord) (a : ℕ) : List ℚ :=
  (itemsL recs).map (fun i => user_item_matrix recs (userAt recs a) i)

/-- Column vector of the matrix at column position `c`. -/
def colVec (recs : List RestaurantRecord) (c : ℕ) : List ℚ :=
  (usersL recs).map (fun u => user_item_matrix recs u (itemAt recs c))

/-- Dot product of two vectors (componentwise, truncating). -/
def dotQ (a b : List ℚ) : ℚ := (List.zipWith (fun x y => x * y) a b).sum

/-- Squared Euclidean norm. -/
def normSq (a : List ℚ) : ℚ := dotQ a a

/-- The squared norm as sklearn adjusts it: a zero norm is replaced by
1 before dividing, so that an all-zero vector gets similarity 0. -/
def adjNormSq (a : List ℚ) : ℚ := if normSq a = 0 then 1 else normSq a

/-- The exact carrier of one cosine-similarity value: the dot product
together with the product of the adjusted squared norms.  The real
value it denotes is `simVal`. -/
def simPair (a b : List ℚ) : ℚ × ℚ := (dotQ a b, adjNormSq a * adjNormSq b)

/-- Rational sorting surrogate for a similarity value: the square of
the cosine.  For the nonnegative vectors of this pipeline it induces
the same order as the real cosine (`pairScore_le_iff`). -/
def pairScore (p : ℚ × ℚ) : ℚ := p.1 ^ 2 / p.2

/-- The real value denoted by a similarity pair. -/
noncomputable def simVal (p : ℚ × ℚ) : ℝ :=
  (p.1 : ℝ) / Real.sqrt (p.2 : ℝ)

/-- Cosine similarity of two rational vectors, with the sklearn
zero-norm convention. -/
noncomputable def cosine_similarity (a b : List ℚ) : ℝ :=
  simVal (simPair a b)

/-- Entry `(a, b)` of `user_similarity = cosine_similarity(user_item_matrix)`. -/
noncomputable def user_similarity (recs : List RestaurantRecord) (a b : ℕ) : ℝ :=
  cosine_similarity (rowVec recs a) (rowVec recs b)

/-- Entry `(c, d)` of `item_similarity = cosine_similarity(user_item_matrix.T)`. -/
noncomputable def item_similarity (recs : List RestaurantRecord) (c d : ℕ) : ℝ :=
  cosine_similarity (colVec recs c) (colVec recs d)

/-- Boolean comparison of two positions of a similarity row, by the
rational surrogate score. -/
def pairLeB (s : List (ℚ × ℚ)) (i j : ℕ) : Bool :=
  decide (pairScore (s.getD i (0, 1)) ≤ pairScore (s.getD j (0, 1)))

/-- `np.argsort` of a similarity row: the positions sorted ascending by
similarity, ties kept in position order. -/
def argsortAsc (s : List (ℚ × ℚ)) : List ℕ :=
  sortLe (pairLeB s) (List.range s.length)

/-- The neighbour window `argsort()[::-1][1:6]`: reverse to descending
order, skip rank 1, keep the next five ranks. -/
def similarSlice (order : List ℕ) : List ℕ :=
  ((order.reverse).drop 1).take 5

/-- Row `k` of the user-similarity matrix, in exact pair form. -/
def userSimRow (recs : List RestaurantRecord) (k : ℕ) : List (ℚ × ℚ) :=
  (List.range (usersL recs).length).map (fun j => simPair (rowVec recs k) (rowVec recs j))

/-- `similar_users = user_similarity[user_index].argsort()[::-1][1:6]`. -/
def similarUsers (recs : List RestaurantRecord) (k : ℕ) : List ℕ :=
  similarSlice (argsortAsc (userSimRow recs k))

/-- Row `k` of the item-similarity matrix, in exact pair form. -/
def itemSimRow (recs : List RestaurantRecord) (k : ℕ) : List (ℚ × ℚ) :=
  (List.range (itemsL recs).length).map (fun j => simPair (colVec recs k) (colVec recs j))

/-- `similar_items = item_similarity[item_index].argsort()[::-1][1:6]`. -/
def similarItems (recs : List RestaurantRecord) (k : ℕ) : List ℕ :=
  similarSlice (argsortAsc (itemSimRow recs k))

/-- `user_item_matrix.iloc[sel].mean()` at column `i`: the mean of the
selected rows, columnwise. -/
def meanScore (recs : List RestaurantRecord) (sel : List ℕ) (i : String) : ℚ :=
  ((sel.map (fun a => user_item_matrix recs (userAt recs a) i)).sum) / (sel.length : ℚ)

/-- Comparison used by `sort_values(ascending=False)` on (name, score)
pairs: descending by score, stable on ties. -/
def valLeDesc (x y : String × ℚ) : Bool := decide (y.2 ≤ x.2)

/-- `already_liked[already_liked > 0].index`: the columns the user
already holds with positive weight. -/
def likedBy (recs : List RestaurantRecord) (user : String) : List String :=
  (itemsL recs).filter (fun i => decide (0 < user_item_matrix recs user i))

/-- `user_based_recommendation(user, n)` of the source, step by step:
unknown users yield `[]`; otherwise take the neighbour window, average
the selected rows, sort the averages descending, remove the liked
columns with `Index.difference` (whose result is sorted
lexicographically, and reindexing by it reorders the series), and
return the first `n` names. -/
def user_based_recommendation (recs : List RestaurantRecord) (user : String) (n : ℕ) : List String :=
  if user ∈ usersL recs then
    let k := (usersL recs).indexOf user
    let sel := similarUsers recs k
    let rec1 := sortLe valLeDesc ((itemsL recs).map (fun i => (i, meanScore recs sel i)))
    let idx := sortedKeys ((rec1.map Prod.fst).filter (fun i => decide (i ∉ likedBy recs user)))
    ((idx.map (fun i => (i, meanScore recs sel i))).take n).map Prod.fst
  else []

/-- `item_based_recommendation(restaurant, n)` of the source: unknown
restaurants yield `[]`; otherwise the names at the neighbour-window
positions, truncated to `n`. -/
def item_based_recommendation (recs : List RestaurantRecord) (restaurant : String) (n : ℕ) : List String :=
  if restaurant ∈ itemsL recs then
    ((similarItems recs ((itemsL recs).indexOf restaurant)).map (fun j => itemAt recs j)).take n
  else []

/-- The record list of the specification scenario. -/
def scenarioRecords : List RestaurantRecord :=
  [⟨"A", "alice,bob"⟩, ⟨"B", "alice"⟩, ⟨"C", "bob,carol"⟩]

/-- Two restaurants recommended by the same single user: their matrix
columns coincide. -/
def dupItemRecords : List RestaurantRecord :=
  [⟨"A", "u"⟩, ⟨"B", "u"⟩]

/-- Two restaurants recommended by two different users: their matrix
columns are orthogonal. -/
def twoItemRecords : List RestaurantRecord :=
  [⟨"A", "u"⟩, ⟨"B", "v"⟩]

/-! ### Generic facts about the stable insertion sort -/

theorem insertLe_perm {α : Type} (le : α → α → Bool) (x : α) (l : List α) :
    (insertLe le x l).Perm (x :: l) := by
  induction l with
  | nil => simp [insertLe]
  | cons y ys ih =>
    by_cases h : le x y = true
    · simp [insertLe, h]
    · rw [insertLe, if_neg h]
      exact (List.Perm.cons y ih).trans (List.Perm.swap x y ys)

theorem sortLe_perm {α : Type} (le : α → α → Bool) (l : List α) :
    (sortLe le l).Perm l := by
  induction l with
  | nil => simp [sortLe]
  | cons x xs ih => exact (insertLe_perm le x (sortLe le xs)).trans (List.Perm.cons x ih)

theorem mem_sortLe {α : Type} {le : α → α → Bool} {l : List α} {a : α} :
    a ∈ sortLe le l ↔ a ∈ l := (sortLe_perm le l).mem_iff

theorem sortLe_nodup {α : Type} {le : α → α → Bool} {l : List α} (h : l.Nodup) :
    (sortLe le l).Nodup := (sortLe_perm le l).nodup_iff.mpr h

theorem insertLe_pairwise {α : Type} {le : α → α → Bool}
    (total : ∀ a b, le a b = true ∨ le b a = true)
    (htrans : ∀ a b c, le a b = true → le b c = true → le a c = true)
    (x : α) {l : List α} (h : l.Pairwise (fun a b => le a b = true)) :
    (insertLe le x l).Pairwise (fun a b => le a b = true) := by
  induction l with
  | nil => simp [insertLe]
  | cons y ys ih =>
    rw [List.pairwise_cons] at h
    obtain ⟨hy, hys⟩ := h
    by_cases hxy : le x y = true
    · rw [insertLe, if_pos hxy]
      refine List.Pairwise.cons ?_ (List.Pairwise.cons hy hys)
      intro z hz
      rcases List.mem_cons.mp hz with rfl | hz'
      · exact hxy
      · exact htrans x y z hxy (hy z hz')
    · rw [insertLe, if_neg hxy]
      refine List.Pairwise.cons ?_ (ih hys)
      intro z hz
      rcases List.mem_cons.mp ((insertLe_perm le x ys).mem_iff.mp hz) with rfl | hz'
      · exact (total z y).resolve_left hxy
      · exact hy z hz'

theorem sortLe_pairwise {α : Type} {le : α → α → Bool}
    (total : ∀ a b, le a b = true ∨ le b a = true)
    (htrans : ∀ a b c, le a b = true → le b c = true → le a c = true)
    (l : List α) :
    (sortLe le l).Pairwise (fun a b => le a b = true) := by
  induction l with
  | nil => exact List.Pairwise.nil
  | cons x xs ih => exact insertLe_pairwise total htrans x ih

theorem mem_sortedKeys {l : List String} {a : String} :
    a ∈ sortedKeys l ↔ a ∈ l := by
  rw [sortedKeys, mem_sortLe, List.mem_dedup]

theorem sortedKeys_nodup (l : List String) : (sortedKeys l).Nodup :=
  sortLe_nodup (List.nodup_dedup l)

/-! ### Facts about the matrix construction -/

theorem mem_usersL_iff {recs : List RestaurantRecord} {u : String} :
    u ∈ usersL recs ↔ u ∈ (keptPairs recs).map Prod.fst := mem_sortedKeys

theorem mem_itemsL_iff {recs : List RestaurantRecord} {i : String} :
    i ∈ itemsL recs ↔ i ∈ (keptPairs recs).map Prod.snd := mem_sortedKeys

theorem itemsL_nodup (recs : List RestaurantRecord) : (itemsL recs).Nodup :=
  sortedKeys_nodup _

theorem usersL_nodup (recs : List RestaurantRecord) : (usersL recs).Nodup :=
  sortedKeys_nodup _

theorem rawEntry_nonneg (recs : List RestaurantRecord) (u i : String) :
    0 ≤ rawEntry recs u i := by
  exact_mod_cast Nat.cast_nonneg _

theorem sum_map_pos {α : Type} {l : List α} {f : α → ℚ}
    (hnn : ∀ x ∈ l, 0 ≤ f x) {a : α} (ha : a ∈ l) (hpos : 0 < f a) :
    0 < (l.map f).sum := by
  induction l with
  | nil => cases ha
  | cons b bs ih =>
    rw [List.map_cons, List.sum_cons]
    rcases List.mem_cons.mp ha with rfl | ha'
    · have h2 : 0 ≤ (bs.map f).sum := by
        refine List.sum_nonneg ?_
        intro q hq
        obtain ⟨x, hx, rfl⟩ := List.mem_map.mp hq
        exact hnn x (List.mem_cons_of_mem _ hx)
      linarith
    · have hb := hnn b (List.mem_cons_self b bs)
      have h2 := ih (fun x hx => hnn x (List.mem_cons_of_mem _ hx)) ha'
      linarith

theorem rowSum_pos {recs : List RestaurantRecord} {u : String}
    (hu : u ∈ usersL recs) : 0 < rowSum recs u := by
  obtain ⟨p, hp, hpu⟩ := List.mem_map.mp (mem_usersL_iff.mp hu)
  have hi : p.2 ∈ itemsL recs := mem_itemsL_iff.mpr (List.mem_map.mpr ⟨p, hp, rfl⟩)
  have hpos : 0 < rawEntry recs u p.2 := by
    rw [rawEntry]
    have : (u, p.2) ∈ keptPairs recs := by
      have : p = (u, p.2) := by rw [← hpu]
      rw [← this]; exact hp
    exact_mod_cast List.count_pos_iff.mpr this
  exact sum_map_pos (fun x _ => rawEntry_nonneg recs u x) hi hpos

theorem sum_map_div {α : Type} (l : List α) (f : α → ℚ) (c : ℚ) :
    (l.map (fun i => f i / c)).sum = (l.map f).sum / c := by
  induction l with
  | nil => simp
  | cons b bs ih => simp [ih, add_div]

/-! ### Facts about the dot product and cosine similarity -/

theorem dotQ_comm (a b : List ℚ) : dotQ a b = dotQ b a := by
  rw [dotQ, dotQ, List.zipWith_comm_of_comm _ mul_comm]

theorem dotQ_eq_sum_range (a : List ℚ) :
    ∀ b : List ℚ, dotQ a b =
      ∑ i ∈ Finset.range (min a.length b.length), a.getD i 0 * b.getD i 0 := by
  induction a with
  | nil => intro b; simp [dotQ]
  | cons x as ih =>
    intro b
    cases b with
    | nil => simp [dotQ]
    | cons y bs =>
      have h1 : dotQ (x :: as) (y :: bs) = x * y + dotQ as bs := by
        rw [dotQ, List.zipWith_cons_cons, List.sum_cons, dotQ]
      rw [h1, ih bs]
      rw [List.length_cons, List.length_cons, Nat.succ_min_succ, Finset.sum_range_succ']
      simp [add_comm]

theorem normSq_eq_sum (a : List ℚ) :
    normSq a = ∑ i ∈ Finset.range a.length, a.getD i 0 ^ 2 := by
  rw [normSq, dotQ_eq_sum_range, min_self]
  refine Finset.sum_congr rfl ?_
  intro i _
  rw [sq]

theorem normSq_nonneg (a : List ℚ) : 0 ≤ normSq a := by
  rw [normSq_eq_sum]
  exact Finset.sum_nonneg fun i _ => sq_nonneg _

theorem dotQ_zero_of_normSq_zero {a : List ℚ} (h : normSq a = 0) (b : List ℚ) :
    dotQ a b = 0 := by
  have hz : ∀ i ∈ Finset.range a.length, a.getD i 0 = 0 := by
    intro i hi
    have := (Finset.sum_eq_zero_iff_of_nonneg (fun j _ => sq_nonneg (a.getD j 0))).mp
      ((normSq_eq_sum a) ▸ h) i hi
    exact pow_eq_zero_iff (two_ne_zero) |>.mp this
  rw [dotQ_eq_sum_range]
  refine Finset.sum_eq_zero ?_
  intro i hi
  have hia : i ∈ Finset.range a.length :=
    Finset.mem_range.mpr (lt_of_lt_of_le (Finset.mem_range.mp hi) (min_le_left _ _))
  rw [hz i hia, zero_mul]

theorem dotQ_sq_le (a b : List ℚ) : dotQ a b ^ 2 ≤ normSq a * normSq b := by
  rw [dotQ_eq_sum_range, normSq_eq_sum a, normSq_eq_sum b]
  refine le_trans
    (Finset.sum_mul_sq_le_sq_mul_sq (Finset.range (min a.length b.length))
      (fun i => a.getD i 0) (fun i => b.getD i 0)) ?_
  have hsub1 : Finset.range (min a.length b.length) ⊆ Finset.range a.length :=
    Finset.range_subset.mpr (min_le_left _ _)
  have hsub2 : Finset.range (min a.length b.length) ⊆ Finset.range b.length :=
    Finset.range_subset.mpr (min_le_right _ _)
  refine mul_le_mul ?_ ?_ ?_ ?_
  · exact Finset.sum_le_sum_of_subset_of_nonneg hsub1 fun i _ _ => sq_nonneg _
  · exact Finset.sum_le_sum_of_subset_of_nonneg hsub2 fun i _ _ => sq_nonneg _
  · exact Finset.sum_nonneg fun i _ => sq_nonneg _
  · exact Finset.sum_nonneg fun i _ => sq_nonneg _

theorem dotQ_nonneg {a b : List ℚ} (ha : ∀ x ∈ a, 0 ≤ x) (hb : ∀ x ∈ b, 0 ≤ x) :
    0 ≤ dotQ a b := by
  rw [dotQ_eq_sum_range]
  refine Finset.sum_nonneg ?_
  intro i _
  refine mul_nonneg ?_ ?_
  · by_cases h : i < a.length
    · rw [List.getD_eq_getElem a 0 h]
      exact ha _ (List.getElem_mem h)
    · rw [List.getD_eq_default a 0 (le_of_not_lt h)]
  · by_cases h : i < b.length
    · rw [List.getD_eq_getElem b 0 h]
      exact hb _ (List.getElem_mem h)
    · rw [List.getD_eq_default b 0 (le_of_not_lt h)]

theorem cosine_similarity_comm (a b : List ℚ) :
    cosine_similarity a b = cosine_similarity b a := by
  rw [cosine_similarity, cosine_similarity, simPair, simPair, dotQ_comm, mul_comm]

/-- The rational surrogate score sorts similarity pairs exactly as the
real cosine values do, for the pairs this pipeline produces: a
nonnegative dot product and positive adjusted squared norms. -/
theorem pairScore_le_iff {p q : ℚ × ℚ}
    (hp1 : 0 ≤ p.1) (hq1 : 0 ≤ q.1) (hp2 : 0 < p.2) (hq2 : 0 < q.2) :
    (pairScore p ≤ pairScore q ↔ simVal p ≤ simVal q) := by
  have hval : ∀ r : ℚ × ℚ, 0 ≤ r.1 → 0 < r.2 →
      simVal r = Real.sqrt ((pairScore r : ℚ) : ℝ) := by
    intro r hr1 hr2
    rw [simVal, pairScore]
    push_cast
    rw [Real.sqrt_div (by positivity) _, Real.sqrt_sq (by exact_mod_cast hr1)]
  rw [hval p hp1 hp2, hval q hq1 hq2]
  constructor
  · intro h
    exact Real.sqrt_le_sqrt (by exact_mod_cast h)
  · intro h
    have hq : (0:ℝ) ≤ ((pairScore q : ℚ) : ℝ) := by
      have : (0:ℚ) ≤ pairScore q := div_nonneg (sq_nonneg _) (le_of_lt hq2)
      exact_mod_cast this
    have := (Real.sqrt_le_sqrt_iff hq).mp h
    exact_mod_cast this

/-! ### Facts about the argsort and the neighbour window -/

theorem argsortAsc_perm (s : List (ℚ × ℚ)) :
    (argsortAsc s).Perm (List.range s.length) := sortLe_perm _ _

theorem argsortAsc_nodup (s : List (ℚ × ℚ)) : (argsortAsc s).Nodup :=
  (argsortAsc_perm s).nodup_iff.mpr (List.nodup_range _)

theorem mem_argsortAsc {s : List (ℚ × ℚ)} {j : ℕ} :
    j ∈ argsortAsc s ↔ j < s.length := by
  rw [(argsortAsc_perm s).mem_iff, List.mem_range]

theorem pairLeB_total (s : List (ℚ × ℚ)) :
    ∀ i j, pairLeB s i j = true ∨ pairLeB s j i = true := by
  intro i j
  rcases le_total (pairScore (s.getD i (0, 1))) (pairScore (s.getD j (0, 1))) with h | h
  · exact Or.inl (decide_eq_true h)
  · exact Or.inr (decide_eq_true h)

theorem pairLeB_trans (s : List (ℚ × ℚ)) :
    ∀ i j k, pairLeB s i j = true → pairLeB s j k = true → pairLeB s i k = true := by
  intro i j k hij hjk
  exact decide_eq_true (le_trans (of_decide_eq_true hij) (of_decide_eq_true hjk))

theorem argsortAsc_pairwise (s : List (ℚ × ℚ)) :
    (argsortAsc s).Pairwise (fun i j => pairLeB s i j = true) :=
  sortLe_pairwise (pairLeB_total s) (pairLeB_trans s) _

/-- If position `k` holds the strictly greatest score of the row, the
ascending argsort puts it last. -/
theorem argsort_getLast_eq {s : List (ℚ × ℚ)} {k : ℕ} (hk : k < s.length)
    (hmax : ∀ j, j < s.length → j ≠ k →
      pairScore (s.getD j (0, 1)) < pairScore (s.getD k (0, 1)))
    (hne : argsortAsc s ≠ []) :
    (argsortAsc s).getLast hne = k := by
  have hmem : k ∈ argsortAsc s := mem_argsortAsc.mpr hk
  have hlast_mem : (argsortAsc s).getLast hne ∈ argsortAsc s := List.getLast_mem hne
  have hlt : (argsortAsc s).getLast hne < s.length := mem_argsortAsc.mp hlast_mem
  by_contra hne2
  have hsplit := List.dropLast_append_getLast hne
  have hk_drop : k ∈ (argsortAsc s).dropLast := by
    have hm := hmem
    rw [← hsplit] at hm
    rcases List.mem_append.mp hm with h | h
    · exact h
    · exact absurd (List.mem_singleton.mp h).symm hne2
  have hpair := argsortAsc_pairwise s
  rw [← hsplit] at hpair
  obtain ⟨-, -, hrel⟩ := List.pairwise_append.mp hpair
  have hle : pairScore (s.getD k (0, 1)) ≤
      pairScore (s.getD ((argsortAsc s).getLast hne) (0, 1)) :=
    of_decide_eq_true (hrel k hk_drop _ (List.mem_singleton.mpr rfl))
  have hstrict := hmax _ hlt hne2
  linarith

/-- If position `k` holds the strictly greatest score of the row, the
window `argsort()[::-1][1:6]` does not contain `k`: the rank-1 element
is `k` itself and is skipped. -/
theorem self_not_mem_similarSlice {s : List (ℚ × ℚ)} {k : ℕ} (hk : k < s.length)
    (hmax : ∀ j, j < s.length → j ≠ k →
      pairScore (s.getD j (0, 1)) < pairScore (s.getD k (0, 1))) :
    k ∉ similarSlice (argsortAsc s) := by
  have hne : argsortAsc s ≠ [] := List.ne_nil_of_mem (mem_argsortAsc.mpr hk)
  have hlast := argsort_getLast_eq hk hmax hne
  have hsplit := List.dropLast_append_getLast hne
  rw [hlast] at hsplit
  have hnodup := argsortAsc_nodup s
  have hknotdrop : k ∉ (argsortAsc s).dropLast := by
    intro hmem
    rw [← hsplit] at hnodup
    obtain ⟨-, -, hdisj⟩ := List.nodup_append.mp hnodup
    exact hdisj hmem (List.mem_singleton.mpr rfl)
  intro hmem_slice
  have h1 : k ∈ ((argsortAsc s).reverse).drop 1 :=
    (List.take_sublist _ _).subset hmem_slice
  have hrev : (argsortAsc s).reverse = k :: ((argsortAsc s).dropLast).reverse := by
    conv_lhs => rw [← hsplit]
    rw [List.reverse_append, List.reverse_singleton, List.singleton_append]
  rw [hrev, List.drop_succ_cons, List.drop_zero] at h1
  exact hknotdrop (List.mem_reverse.mp h1)

theorem similarSlice_nodup {order : List ℕ} (h : order.Nodup) :
    (similarSlice order).Nodup :=
  ((List.take_sublist _ _).trans ((List.drop_sublist _ _).trans
    (List.reverse_sublist.mpr (List.Sublist.refl _)))).nodup
    (List.nodup_reverse.mpr h)

theorem similarSlice_length_le (order : List ℕ) : (similarSlice order).length ≤ 5 := by
  rw [similarSlice, List.length_take]
  exact min_le_left _ _

theorem mem_similarSlice_sub {order : List ℕ} {j : ℕ} (h : j ∈ similarSlice order) :
    j ∈ order := by
  have h1 : j ∈ (order.reverse).drop 1 := (List.take_sublist _ _).subset h
  exact List.mem_reverse.mp ((List.drop_sublist _ _).subset h1)

/-! ### Facts about the two recommenders -/

theorem take_map_fst (l : List String) (g : String → ℚ) (n : ℕ) :
    ((l.map (fun i => (i, g i))).take n).map Prod.fst = l.take n := by
  rw [← List.map_take, List.map_map]
  have h : (Prod.fst ∘ fun i : String => (i, g i)) = id := rfl
  rw [h, List.map_id]

/-- In the known-user branch, the returned list is the first `n` names
of the difference index: the final reindex-then-head step only keeps
the index. -/
theorem user_based_eq_of_mem {recs : List RestaurantRecord} {user : String}
    (n : ℕ) (h : user ∈ usersL recs) :
    user_based_recommendation recs user n =
      (sortedKeys (((sortLe valLeDesc ((itemsL recs).map (fun i =>
          (i, meanScore recs (similarUsers recs ((usersL recs).indexOf user)) i)))).map
            Prod.fst).filter (fun i => decide (i ∉ likedBy recs user)))).take n := by
  rw [user_based_recommendation, if_pos h]
  exact take_map_fst _ _ _

theorem mem_user_based {recs : List RestaurantRecord} {user x : String} {n : ℕ}
    (hx : x ∈ user_based_recommendation recs user n) :
    x ∈ itemsL recs ∧ ¬ 0 < user_item_matrix recs user x := by
  by_cases h : user ∈ usersL recs
  · rw [user_based_eq_of_mem n h] at hx
    have hx1 := mem_sortedKeys.mp (List.mem_of_mem_take hx)
    obtain ⟨hmemfst, hdec⟩ := List.mem_filter.mp hx1
    have hnotliked : x ∉ likedBy recs user := of_decide_eq_true hdec
    obtain ⟨pr, hpr, hprx⟩ := List.mem_map.mp hmemfst
    obtain ⟨i, hi, hieq⟩ := List.mem_map.mp (mem_sortLe.mp hpr)
    have hxitems : x ∈ itemsL recs := by
      rw [← hprx, ← hieq]
      exact hi
    refine ⟨hxitems, ?_⟩
    intro hpos
    exact hnotliked (List.mem_filter.mpr ⟨hxitems, decide_eq_true hpos⟩)
  · rw [user_based_recommendation, if_neg h] at hx
    cases hx

theorem itemAt_mem {recs : List RestaurantRecord} {j : ℕ}
    (hj : j < (itemsL recs).length) : itemAt recs j ∈ itemsL recs := by
  rw [itemAt, List.getD_eq_getElem _ _ hj]
  exact List.getElem_mem hj

theorem itemAt_inj {recs : List RestaurantRecord} {i j : ℕ}
    (hi : i < (itemsL recs).length) (hj : j < (itemsL recs).length)
    (h : itemAt recs i = itemAt recs j) : i = j := by
  rw [itemAt, itemAt, List.getD_eq_getElem _ _ hi, List.getD_eq_getElem _ _ hj] at h
  have h2 : (itemsL recs).get ⟨i, hi⟩ = (itemsL recs).get ⟨j, hj⟩ := h
  exact congrArg Fin.val ((itemsL_nodup recs).get_inj_iff.mp h2)

theorem itemSimRow_length (recs : List RestaurantRecord) (k : ℕ) :
    (itemSimRow recs k).length = (itemsL recs).length := by
  rw [itemSimRow, List.length_map, List.length_range]

theorem userSimRow_length (recs : List RestaurantRecord) (k : ℕ) :
    (userSimRow recs k).length = (usersL recs).length := by
  rw [userSimRow, List.length_map, List.length_range]

theorem mem_similarItems {recs : List RestaurantRecord} {k j : ℕ}
    (h : j ∈ similarItems recs k) : j < (itemsL recs).length := by
  have := mem_argsortAsc.mp (mem_similarSlice_sub h)
  rwa [itemSimRow_length] at this

theorem mem_item_based {recs : List RestaurantRecord} {r x : String} {n : ℕ}
    (hx : x ∈ item_based_recommendation recs r n) : x ∈ itemsL recs := by
  by_cases h : r ∈ itemsL recs
  · rw [item_based_recommendation, if_pos h] at hx
    obtain ⟨j, hj, hjx⟩ := List.mem_map.mp (List.mem_of_mem_take hx)
    rw [← hjx]
    exact itemAt_mem (mem_similarItems hj)
  · rw [item_based_recommendation, if_neg h] at hx
    cases hx

/-! ### Concrete evaluations of the pipeline on the scenario records -/

theorem scen_pairs :
    keptPairs scenarioRecords = [("alice", "A"), ("bob", "B"), ("alice", "C")] := by decide

theorem scen_users : usersL scenarioRecords = ["alice", "bob"] := by decide

theorem scen_items : itemsL scenarioRecords = ["A", "B", "C"] := by decide

theorem scen_wtab :
    (user_item_matrix scenarioRecords "alice" "A" = 1/2) ∧
    (user_item_matrix scenarioRecords "alice" "B" = 0) ∧
    (user_item_matrix scenarioRecords "alice" "C" = 1/2) ∧
    (user_item_matrix scenarioRecords "bob" "A" = 0) ∧
    (user_item_matrix scenarioRecords "bob" "B" = 1) ∧
    (user_item_matrix scenarioRecords "bob" "C" = 0) := by
  refine ⟨?_, ?_, ?_, ?_, ?_, ?_⟩ <;>
    · simp [user_item_matrix, rawEntry, rowSum, scen_pairs, scen_items, List.count_cons]
      try norm_num

theorem scen_row0 : rowVec scenarioRecords 0 = [1/2, 0, 1/2] := by
  simp [rowVec, scen_items, userAt, scen_users, scen_wtab.1, scen_wtab.2.1, scen_wtab.2.2.1]

theorem scen_row1 : rowVec scenarioRecords 1 = [0, 1, 0] := by
  simp [rowVec, scen_items, userAt, scen_users, scen_wtab.2.2.2.1, scen_wtab.2.2.2.2.1,
    scen_wtab.2.2.2.2.2]

theorem scen_simrow0 : userSimRow scenarioRecords 0 = [((1:ℚ)/2, 1/4), (0, 1/2)] := by
  simp [userSimRow, scen_users, List.range_succ, scen_row0, scen_row1, simPair, dotQ,
    normSq, adjNormSq]
  norm_num

theorem scen_simusers0 : similarUsers scenarioRecords 0 = [1] := by
  simp [similarUsers, argsortAsc, scen_simrow0, sortLe, insertLe, pairLeB, pairScore,
    similarSlice]
  norm_num [sortLe, insertLe, pairLeB, pairScore, similarSlice]

theorem scen_ubr1 : user_based_recommendation scenarioRecords "alice" 1 = ["B"] := by
  simp only [user_based_recommendation, scen_users]
  simp only [List.mem_cons, List.mem_singleton]
  norm_num [scen_simusers0, scen_items, meanScore, userAt, scen_users,
    scen_wtab.2.2.2.1, scen_wtab.2.2.2.2.1, scen_wtab.2.2.2.2.2,
    sortLe, insertLe, valLeDesc, likedBy, sortedKeys, strLe, lexLe,
    List.filter, scen_wtab.1, scen_wtab.2.1, scen_wtab.2.2.1, List.dedup]

theorem scen_ubr3 : user_based_recommendation scenarioRecords "alice" 3 = ["B"] := by
  simp only [user_based_recommendation, scen_users]
  simp only [List.mem_cons, List.mem_singleton]
  norm_num [scen_simusers0, scen_items, meanScore, userAt, scen_users,
    scen_wtab.2.2.2.1, scen_wtab.2.2.2.2.1, scen_wtab.2.2.2.2.2,
    sortLe, insertLe, valLeDesc, likedBy, sortedKeys, strLe, lexLe,
    List.filter, scen_wtab.1, scen_wtab.2.1, scen_wtab.2.2.1, List.dedup]

theorem scen_rowSum_dave : rowSum scenarioRecords "dave" = 0 := by
  simp [rowSum, rawEntry, scen_pairs, scen_items, List.count_cons]

/-! ### Concrete evaluations on the duplicate-column records -/

theorem dup_pairs : keptPairs dupItemRecords = [("u", "A"), ("u", "B")] := by decide

theorem dup_users : usersL dupItemRecords = ["u"] := by decide

theorem dup_items : itemsL dupItemRecords = ["A", "B"] := by decide

theorem dup_wtab :
    (user_item_matrix dupItemRecords "u" "A" = 1/2) ∧
    (user_item_matrix dupItemRecords "u" "B" = 1/2) := by
  constructor <;>
    · simp [user_item_matrix, rawEntry, rowSum, dup_pairs, dup_items, List.count_cons]
      try norm_num

theorem dup_col0 : colVec dupItemRecords 0 = [1/2] := by
  simp [colVec, dup_users, dup_items, itemAt, dup_wtab.1]

theorem dup_col1 : colVec dupItemRecords 1 = [1/2] := by
  simp [colVec, dup_users, dup_items, itemAt, dup_wtab.2]

theorem dup_simrow0 : itemSimRow dupItemRecords 0 = [((1:ℚ)/4, 1/16), ((1:ℚ)/4, 1/16)] := by
  simp [itemSimRow, dup_items, List.range_succ, dup_col0, dup_col1, simPair, dotQ,
    normSq, adjNormSq]
  norm_num

theorem dup_simitems0 : similarItems dupItemRecords 0 = [0] := by
  simp [similarItems, argsortAsc, dup_simrow0, sortLe, insertLe, pairLeB, pairScore,
    similarSlice]

theorem dup_ibr : item_based_recommendation dupItemRecords "A" 3 = ["A"] := by
  simp only [item_based_recommendation, dup_items]
  simp [dup_simitems0, itemAt, dup_items]

/-! ### Concrete evaluations on the orthogonal-column records -/

theorem two_pairs : keptPairs twoItemRecords = [("u", "A"), ("v", "B")] := by decide

theorem two_users : usersL twoItemRecords = ["u", "v"] := by decide

theorem two_items : itemsL twoItemRecords = ["A", "B"] := by decide

theorem two_wtab :
    (user_item_matrix twoItemRecords "u" "A" = 1) ∧
    (user_item_matrix twoItemRecords "u" "B" = 0) ∧
    (user_item_matrix twoItemRecords "v" "A" = 0) ∧
    (user_item_matrix twoItemRecords "v" "B" = 1) := by
  refine ⟨?_, ?_, ?_, ?_⟩ <;>
    · simp [user_item_matrix, rawEntry, rowSum, two_pairs, two_items, List.count_cons]
      try norm_num

theorem two_col0 : colVec twoItemRecords 0 = [1, 0] := by
  simp [colVec, two_users, two_items, itemAt, two_wtab.1, two_wtab.2.2.1]

theorem two_col1 : colVec twoItemRecords 1 = [0, 1] := by
  simp [colVec, two_users, two_items, itemAt, two_wtab.2.1, two_wtab.2.2.2]

theorem two_simrow0 : itemSimRow twoItemRecords 0 = [((1:ℚ), 1), (0, 1)] := by
  simp [itemSimRow, two_items, List.range_succ, two_col0, two_col1, simPair, dotQ,
    normSq, adjNormSq]

/-! ### Properties of cosine similarity as the engine computes it -/

theorem cosine_similarity_zero {a b : List ℚ} (h : normSq a = 0 ∨ normSq b = 0) :
    cosine_similarity a b = 0 := by
  have hdot : dotQ a b = 0 := by
    rcases h with h | h
    · exact dotQ_zero_of_normSq_zero h b
    · rw [dotQ_comm]; exact dotQ_zero_of_normSq_zero h a
  simp [cosine_similarity, simVal, simPair, hdot]

theorem cosine_similarity_formula {a b : List ℚ} (ha : normSq a ≠ 0) (hb : normSq b ≠ 0) :
    cosine_similarity a b =
      ((dotQ a b : ℚ) : ℝ) /
        (Real.sqrt ((normSq a : ℚ) : ℝ) * Real.sqrt ((normSq b : ℚ) : ℝ)) := by
  simp only [cosine_similarity, simVal, simPair, adjNormSq, if_neg ha, if_neg hb]
  rw [Rat.cast_mul, Real.sqrt_mul (by exact_mod_cast normSq_nonneg a)]

theorem cosine_similarity_abs_le (a b : List ℚ) : |cosine_similarity a b| ≤ 1 := by
  by_cases ha : normSq a = 0
  · rw [cosine_similarity_zero (Or.inl ha)]; norm_num
  by_cases hb : normSq b = 0
  · rw [cosine_similarity_zero (Or.inr hb)]; norm_num
  have hqa : (0:ℝ) < ((normSq a : ℚ) : ℝ) := by
    have := lt_of_le_of_ne (normSq_nonneg a) (Ne.symm ha)
    exact_mod_cast this
  have hqb : (0:ℝ) < ((normSq b : ℚ) : ℝ) := by
    have := lt_of_le_of_ne (normSq_nonneg b) (Ne.symm hb)
    exact_mod_cast this
  rw [cosine_similarity_formula ha hb, abs_div]
  have hden : 0 < Real.sqrt ((normSq a : ℚ) : ℝ) * Real.sqrt ((normSq b : ℚ) : ℝ) :=
    mul_pos (Real.sqrt_pos.mpr hqa) (Real.sqrt_pos.mpr hqb)
  rw [abs_of_pos hden, div_le_one hden]
  have h1 : (((dotQ a b) : ℚ) : ℝ) ^ 2 ≤ ((normSq a : ℚ) : ℝ) * ((normSq b : ℚ) : ℝ) := by
    exact_mod_cast dotQ_sq_le a b
  calc |((dotQ a b : ℚ) : ℝ)|
      = Real.sqrt ((((dotQ a b) : ℚ) : ℝ) ^ 2) := (Real.sqrt_sq_eq_abs _).symm
    _ ≤ Real.sqrt (((normSq a : ℚ) : ℝ) * ((normSq b : ℚ) : ℝ)) := Real.sqrt_le_sqrt h1
    _ = Real.sqrt ((normSq a : ℚ) : ℝ) * Real.sqrt ((normSq b : ℚ) : ℝ) :=
        Real.sqrt_mul (le_of_lt hqa) _

theorem cosine_similarity_nonneg {a b : List ℚ} (ha : ∀ x ∈ a, 0 ≤ x) (hb : ∀ x ∈ b, 0 ≤ x) :
    0 ≤ cosine_similarity a b := by
  simp only [cosine_similarity, simVal, simPair]
  refine div_nonneg ?_ (Real.sqrt_nonneg _)
  exact_mod_cast dotQ_nonneg ha hb

/-! ### The claims -/

/-- Claim C1.  The specification scenario fails on the code: for the
records A:(alice,bob), B:(alice), C:(bob,carol) the built matrix is not
the one the specification states.  Because the pivot aligns the
`columns=df['店名']` Series with the exploded pair frame by position,
the code builds alice at A with 1/2 and at C with 1/2, gives B to bob
entirely, drops carol altogether, and returns B, not C, for alice.
This theorem evaluates the embedded code at the scenario input. -/
theorem claim_C1_code_eval :
    user_based_recommendation scenarioRecords "alice" 1 = ["B"] ∧
    user_item_matrix scenarioRecords "alice" "B" = 0 ∧
    user_item_matrix scenarioRecords "alice" "C" = 1/2 ∧
    user_item_matrix scenarioRecords "bob" "A" = 0 ∧
    "carol" ∉ usersL scenarioRecords :=
  ⟨scen_ubr1, scen_wtab.2.1, scen_wtab.2.2.1, scen_wtab.2.2.2.1, by decide⟩

/-- Claim C2.  Every row of the built preference matrix whose user is
present (equivalently, has at least one nonzero raw count) sums to
exactly 1; in the rational embedding this is exact, hence within any
floating tolerance. -/
theorem claim_C2_row_sums_to_one (recs : List RestaurantRecord) (u : String)
    (hu : u ∈ usersL recs) :
    ((itemsL recs).map (fun i => user_item_matrix recs u i)).sum = 1 := by
  have hpos := rowSum_pos hu
  have hrw : ((itemsL recs).map (fun i => user_item_matrix recs u i)).sum
      = ((itemsL recs).map (fun i => rawEntry recs u i)).sum / rowSum recs u := by
    rw [← sum_map_div]
    rfl
  rw [hrw]
  exact div_self (ne_of_gt hpos)

theorem claim_C2_witness :
    "alice" ∈ usersL scenarioRecords ∧
    ((itemsL scenarioRecords).map
      (fun i => user_item_matrix scenarioRecords "alice" i)).sum = 1 :=
  ⟨by decide, claim_C2_row_sums_to_one scenarioRecords "alice" (by decide)⟩

/-- Claim C3.  `user_based_recommendation` never returns a restaurant
whose weight in the querying row of the matrix is positive: the
difference step removes every liked column before the head is taken. -/
theorem claim_C3_never_liked (recs : List RestaurantRecord) (user x : String) (n : ℕ)
    (hx : x ∈ user_based_recommendation recs user n) :
    ¬ 0 < user_item_matrix recs user x := (mem_user_based hx).2

theorem claim_C3_witness :
    "B" ∈ user_based_recommendation scenarioRecords "alice" 3 ∧
    ¬ 0 < user_item_matrix scenarioRecords "alice" "B" :=
  ⟨by rw [scen_ubr3]; exact List.mem_singleton.mpr rfl,
   claim_C3_never_liked scenarioRecords "alice" "B" 3
     (by rw [scen_ubr3]; exact List.mem_singleton.mpr rfl)⟩

/-- Claim C4.  A user absent from the rows and a restaurant absent from
the columns yield empty recommendation lists, with no error raised: the
guard clauses return early. -/
theorem claim_C4_unknown_empty (recs : List RestaurantRecord) (u r : String) (n m : ℕ)
    (hu : u ∉ usersL recs) (hr : r ∉ itemsL recs) :
    user_based_recommendation recs u n = [] ∧ item_based_recommendation recs r m = [] :=
  ⟨by rw [user_based_recommendation, if_neg hu],
   by rw [item_based_recommendation, if_neg hr]⟩

theorem claim_C4_witness :
    user_based_recommendation scenarioRecords "dave" 3 = [] ∧
    item_based_recommendation scenarioRecords "X" 3 = [] :=
  claim_C4_unknown_empty scenarioRecords "dave" "X" 3 3 (by decide) (by decide)

/-- Claim C5, counterexample.  The claim that the queried entity is
always excluded fails on the code: with two restaurants recommended by
the same single user, the two similarity columns tie at 1, the stable
ascending argsort leaves the queried index first, the reversal puts the
other index at rank 1, and the window ranks 2..6 contains the queried
restaurant itself, which is then returned. -/
theorem claim_C5_counterexample :
    "A" ∈ item_based_recommendation dupItemRecords "A" 3 := by
  rw [dup_ibr]
  exact List.mem_singleton.mpr rfl

/-- Claim C5, amended.  Provided the queried entity holds the strictly
greatest similarity score of its own row (in particular, no other row
or column is a positive multiple of its vector), rank 1 of the
descending order is the entity itself and the window ranks 2..6
exclude it: the queried user is never among the selected similar
users, and `item_based_recommendation` never returns the queried
restaurant. -/
theorem claim_C5_self_excluded :
    (∀ (recs : List RestaurantRecord) (k : ℕ), k < (usersL recs).length →
      (∀ j, j < (usersL recs).length → j ≠ k →
        pairScore ((userSimRow recs k).getD j (0, 1)) <
          pairScore ((userSimRow recs k).getD k (0, 1))) →
      k ∉ similarUsers recs k) ∧
    (∀ (recs : List RestaurantRecord) (r : String) (n : ℕ), r ∈ itemsL recs →
      (∀ j, j < (itemsL recs).length → j ≠ (itemsL recs).indexOf r →
        pairScore ((itemSimRow recs ((itemsL recs).indexOf r)).getD j (0, 1)) <
          pairScore ((itemSimRow recs ((itemsL recs).indexOf r)).getD
            ((itemsL recs).indexOf r) (0, 1))) →
      r ∉ item_based_recommendation recs r n) := by
  constructor
  · intro recs k hk hmax
    rw [similarUsers]
    refine self_not_mem_similarSlice ?_ ?_
    · rw [userSimRow_length]; exact hk
    · intro j hj hne
      rw [userSimRow_length] at hj
      exact hmax j hj hne
  · intro recs r n hr hmax
    have hk : (itemsL recs).indexOf r < (itemsL recs).length :=
      List.indexOf_lt_length.mpr hr
    have hknot : (itemsL recs).indexOf r ∉ similarItems recs ((itemsL recs).indexOf r) := by
      rw [similarItems]
      refine self_not_mem_similarSlice ?_ ?_
      · rw [itemSimRow_length]; exact hk
      · intro j hj hne
        rw [itemSimRow_length] at hj
        exact hmax j hj hne
    intro hmem
    rw [item_based_recommendation, if_pos hr] at hmem
    obtain ⟨j, hj, hjx⟩ := List.mem_map.mp (List.mem_of_mem_take hmem)
    have hjlt := mem_similarItems hj
    have hkat : itemAt recs ((itemsL recs).indexOf r) = r := by
      have h2 : (itemsL recs).get ⟨(itemsL recs).indexOf r, hk⟩ = r := List.indexOf_get hk
      rw [itemAt, List.getD_eq_getElem _ _ hk]
      exact h2
    have hjk : j = (itemsL recs).indexOf r := itemAt_inj hjlt hk (hjx.trans hkat.symm)
    rw [hjk] at hj
    exact hknot hj

theorem claim_C5_witness :
    0 ∉ similarUsers scenarioRecords 0 ∧
    "A" ∉ item_based_recommendation twoItemRecords "A" 3 :=
  ⟨claim_C5_self_excluded.1 scenarioRecords 0
    (by rw [scen_users]; norm_num)
    (by
      intro j hj hne
      rw [scen_users] at hj
      have hj2 : j < 2 := by simpa using hj
      interval_cases j
      · exact absurd rfl hne
      · rw [scen_simrow0]
        norm_num [pairScore, List.getD_cons_zero, List.getD_cons_succ]),
   claim_C5_self_excluded.2 twoItemRecords "A" 3 (by decide)
    (by
      intro j hj hne
      have hidx : (itemsL twoItemRecords).indexOf "A" = 0 := by decide
      rw [two_items] at hj
      have hj2 : j < 2 := by simpa using hj
      rw [hidx] at hne
      rw [hidx, two_simrow0]
      interval_cases j
      · exact absurd rfl hne
      · norm_num [pairScore, List.getD_cons_zero, List.getD_cons_succ])⟩

/-- Claim C6.  A user whose raw row sum is zero is not a row of the
matrix at all, so the normalisation never divides by zero for a matrix
row, and such a user is never a source of recommendations: querying
them yields the empty list. -/
theorem claim_C6_zero_row_sum (recs : List RestaurantRecord) (u : String) (n : ℕ)
    (h : rowSum recs u = 0) :
    u ∉ usersL recs ∧ user_based_recommendation recs u n = [] := by
  have hu : u ∉ usersL recs := fun hmem => absurd h (ne_of_gt (rowSum_pos hmem))
  exact ⟨hu, by rw [user_based_recommendation, if_neg hu]⟩

theorem claim_C6_witness :
    rowSum scenarioRecords "dave" = 0 ∧
    "dave" ∉ usersL scenarioRecords ∧
    user_based_recommendation scenarioRecords "dave" 3 = [] :=
  ⟨scen_rowSum_dave,
   (claim_C6_zero_row_sum scenarioRecords "dave" 3 scen_rowSum_dave).1,
   (claim_C6_zero_row_sum scenarioRecords "dave" 3 scen_rowSum_dave).2⟩

/-- Claim C7.  For a known restaurant and any `n > 5` the item
recommender still returns at most five names, since the neighbour
window is fixed at five. -/
theorem claim_C7_window_cap (recs : List RestaurantRecord) (r : String) (n : ℕ)
    (h5 : 5 < n) (hr : r ∈ itemsL recs) :
    (item_based_recommendation recs r n).length ≤ 5 := by
  rw [item_based_recommendation, if_pos hr, List.length_take]
  refine le_trans (min_le_right _ _) ?_
  rw [List.length_map]
  exact similarSlice_length_le _

theorem claim_C7_witness :
    (5:ℕ) < 6 ∧ "A" ∈ itemsL scenarioRecords ∧
    (item_based_recommendation scenarioRecords "A" 6).length ≤ 5 :=
  ⟨by norm_num, by decide,
   claim_C7_window_cap scenarioRecords "A" 6 (by norm_num) (by decide)⟩

/-- Claim C8.  Both similarity matrices are symmetric: the dot product
and the product of the adjusted norms are both symmetric in their
arguments. -/
theorem claim_C8_symmetry (recs : List RestaurantRecord) (i j : ℕ) :
    user_similarity recs i j = user_similarity recs j i ∧
    item_similarity recs i j = item_similarity recs j i := by
  constructor
  · rw [user_similarity, user_similarity]
    exact cosine_similarity_comm _ _
  · rw [item_similarity, item_similarity]
    exact cosine_similarity_comm _ _

/-- Claim C9.  Cosine similarity as the engine computes it equals
dot(a,b) divided by the product of the norms whenever both norms are
nonzero, is 0 (not NaN) when either norm is zero, always lies in
[-1, 1], and is nonnegative when the entries are nonnegative. -/
theorem claim_C9_cosine_properties (a b : List ℚ) :
    (normSq a ≠ 0 → normSq b ≠ 0 →
      cosine_similarity a b =
        ((dotQ a b : ℚ) : ℝ) /
          (Real.sqrt ((normSq a : ℚ) : ℝ) * Real.sqrt ((normSq b : ℚ) : ℝ))) ∧
    ((normSq a = 0 ∨ normSq b = 0) → cosine_similarity a b = 0) ∧
    (-1 ≤ cosine_similarity a b ∧ cosine_similarity a b ≤ 1) ∧
    ((∀ x ∈ a, 0 ≤ x) → (∀ x ∈ b, 0 ≤ x) → 0 ≤ cosine_similarity a b) :=
  ⟨fun ha hb => cosine_similarity_formula ha hb,
   fun h => cosine_similarity_zero h,
   abs_le.mp (cosine_similarity_abs_le a b),
   fun ha hb => cosine_similarity_nonneg ha hb⟩

theorem claim_C9_witness :
    (cosine_similarity [(1:ℚ)/2, 1/2] [(1:ℚ)/2, 0] =
      ((dotQ [(1:ℚ)/2, 1/2] [(1:ℚ)/2, 0] : ℚ) : ℝ) /
        (Real.sqrt ((normSq [(1:ℚ)/2, 1/2] : ℚ) : ℝ) *
          Real.sqrt ((normSq [(1:ℚ)/2, 0] : ℚ) : ℝ))) ∧
    cosine_similarity [(1:ℚ)/2, 1/2] [(0:ℚ), 0] = 0 ∧
    (-1 ≤ cosine_similarity [(1:ℚ)/2, 1/2] [(1:ℚ)/2, 0] ∧
      cosine_similarity [(1:ℚ)/2, 1/2] [(1:ℚ)/2, 0] ≤ 1) ∧
    0 ≤ cosine_similarity [(1:ℚ)/2, 1/2] [(1:ℚ)/2, 0] :=
  ⟨(claim_C9_cosine_properties _ _).1 (by norm_num [normSq, dotQ]) (by norm_num [normSq, dotQ]),
   (claim_C9_cosine_properties _ _).2.1 (Or.inr (by norm_num [normSq, dotQ])),
   (claim_C9_cosine_properties _ _).2.2.1,
   (claim_C9_cosine_properties _ _).2.2.2
     (by intro x hx; fin_cases hx <;> norm_num)
     (by intro x hx; fin_cases hx <;> norm_num)⟩

/-- Claim C10.  Both recommenders return well-formed lists: at most `n`
names, no duplicates, and only known column names. -/
theorem claim_C10_wellformed (recs : List RestaurantRecord) (user rest : String) (n : ℕ) :
    ((user_based_recommendation recs user n).length ≤ n ∧
     (user_based_recommendation recs user n).Nodup ∧
     (∀ x, x ∈ user_based_recommendation recs user n → x ∈ itemsL recs)) ∧
    ((item_based_recommendation recs rest n).length ≤ n ∧
     (item_based_recommendation recs rest n).Nodup ∧
     (∀ x, x ∈ item_based_recommendation recs rest n → x ∈ itemsL recs)) := by
  constructor
  · refine ⟨?_, ?_, ?_⟩
    · by_cases h : user ∈ usersL recs
      · rw [user_based_eq_of_mem n h, List.length_take]
        exact min_le_left _ _
      · rw [user_based_recommendation, if_neg h]
        simp
    · by_cases h : user ∈ usersL recs
      · rw [user_based_eq_of_mem n h]
        exact List.Nodup.sublist (List.take_sublist _ _) (sortedKeys_nodup _)
      · rw [user_based_recommendation, if_neg h]
        exact List.nodup_nil
    · intro x hx
      exact (mem_user_based hx).1
  · refine ⟨?_, ?_, ?_⟩
    · by_cases h : rest ∈ itemsL recs
      · rw [item_based_recommendation, if_pos h, List.length_take]
        exact min_le_left _ _
      · rw [item_based_recommendation, if_neg h]
        simp
    · by_cases h : rest ∈ itemsL recs
      · rw [item_based_recommendation, if_pos h]
        refine List.Nodup.sublist (List.take_sublist _ _) ?_
        refine List.Nodup.map_on ?_ (similarSlice_nodup (argsortAsc_nodup _))
        intro x hxm y hym hxy
        exact itemAt_inj (mem_similarItems hxm) (mem_similarItems hym) hxy
      · rw [item_based_recommendation, if_neg h]
        exact List.nodup_nil
    · intro x hx
      exact mem_item_based hx

theorem claim_C10_witness :
    (user_based_recommendation scenarioRecords "alice" 1).length ≤ 1 ∧
    "B" ∈ itemsL scenarioRecords ∧
    (item_based_recommendation scenarioRecords "A" 2).Nodup :=
  ⟨(claim_C10_wellformed scenarioRecords "alice" "A" 1).1.1,
   (claim_C10_wellformed scenarioRecords "alice" "A" 1).1.2.2 "B"
     (by rw [scen_ubr1]; exact List.mem_singleton.mpr rfl),
   (claim_C10_wellformed scenarioRecords "alice" "A" 2).2.2.1⟩

end RecRestaurant
